import Mathlib

/-!
Shallow embedding of `src/src/fastqcheck.c` (fastqcheck, by Richard Durbin et al.).

The C program reads four-line FASTQ records, folds each record into global and
per-position counters (`main`, lines 95-111), and prints a statistics report
(lines 118-152).  Machine integers (`long`, `unsigned long long`) never
overflow on the inputs considered here, so counters are modelled as `ℕ`; the
signed running denominator of the report loop (`long nseq`, depleted at line
139) is modelled as `ℤ`.  The floating-point report values are modelled over
`ℚ` (fixed-point formatting, `lrint` rounding) and `ℝ` (the logarithmic AQ
value); the concrete inputs used to separate behaviours are chosen so that the
corresponding double computations are exact.

`readFastq` lives in `readseq.c`, which is not part of the sources; it is
modelled from the specification (§4.1) below, clearly marked.
-/

namespace Fastqcheck

/-- `#define MAX_LENGTH 100000` (fastqcheck.c line 61). -/
def MAX_LENGTH : ℕ := 100000

/-- One decoded FASTQ record as delivered by the reader: identifier,
symbol codes (`dna2indexConv` maps A,C,G,T,N to 0..4) and numeric
quality values. -/
structure Record where
  id : String
  symbols : List ℕ
  qualities : List ℕ
deriving Repr, DecidableEq

/-- The `length` reported by the reader for a record (the symbol count). -/
def Record.len (r : Record) : ℕ := r.symbols.length

/-- The guarantees the reader (`readFastq`) gives for every record it returns:
symbol and quality lines have equal length, symbols are decoded into 0..4,
and quality values fit in an `unsigned char`. -/
def ValidRecord (r : Record) : Prop :=
  r.symbols.length = r.qualities.length ∧
    (∀ c ∈ r.symbols, c < 5) ∧ (∀ q ∈ r.qualities, q ≤ 255)

instance : DecidablePred ValidRecord := fun r => by
  unfold ValidRecord; infer_instance

/-- `++f[k]`: bump a counter array modelled as a function at index `k`. -/
def bump (f : ℕ → ℕ) (k : ℕ) : ℕ → ℕ := fun x => if x = k then f x + 1 else f x

/-- `++g[i][k]`: bump a two-dimensional counter array at `(i, k)`. -/
def bump2 (g : ℕ → ℕ → ℕ) (i k : ℕ) : ℕ → ℕ → ℕ :=
  fun x => if x = i then bump (g x) k else g x

/-- The accumulator variables of `main` (lines 74-81): `nseq`, `total`,
`lengthMax`, `qMax`, and the static counter arrays `sum`, `qsum`,
`psum`, `pqsum`, `nlen`. -/
structure AccState where
  nseq : ℕ
  total : ℕ
  lengthMax : ℕ
  qMax : ℕ
  sum : ℕ → ℕ
  qsum : ℕ → ℕ
  psum : ℕ → ℕ → ℕ
  pqsum : ℕ → ℕ → ℕ
  nlen : ℕ → ℕ

/-- The initial state: statics are zero-initialised, scalars start at 0. -/
def initState : AccState :=
  { nseq := 0, total := 0, lengthMax := 0, qMax := 0,
    sum := fun _ => 0, qsum := fun _ => 0,
    psum := fun _ _ => 0, pqsum := fun _ _ => 0, nlen := fun _ => 0 }

/-- The inner loop of lines 105-109: walk the (symbol, quality) pairs of a
record, `i0` being the position index `i`, bumping `sum`, `psum[i]`,
`qsum`, `pqsum[i]` and updating `qMax`. -/
def accumBases : List (ℕ × ℕ) → ℕ → AccState → AccState
  | [], _, s => s
  | (c, q) :: rest, i0, s =>
      accumBases rest (i0 + 1)
        { s with
          sum := bump s.sum c
          psum := bump2 s.psum i0 c
          qsum := bump s.qsum q
          pqsum := bump2 s.pqsum i0 q
          qMax := max s.qMax q }

/-- Lines 96-97: `++nseq ; ++nlen[length] ; total += length`. -/
def preStep (s : AccState) (r : Record) : AccState :=
  { s with nseq := s.nseq + 1, nlen := bump s.nlen r.len, total := s.total + r.len }

/-- Lines 98-104 without the fatal exit: update `lengthMax` when the new
record is the longest so far. -/
def withLengthMax (s : AccState) (r : Record) : AccState :=
  if r.len > s.lengthMax then { s with lengthMax := r.len } else s

/-- One full loop iteration of lines 96-110 for an accepted record. -/
def accumulate (s : AccState) (r : Record) : AccState :=
  accumBases (r.symbols.zip r.qualities) 0 (withLengthMax (preStep s r) r)

/-- The accumulator state after folding a list of records, starting from the
zero-initialised statics. -/
def foldRecords (rs : List Record) : AccState := rs.foldl accumulate initState

/-- One loop iteration of lines 96-110 including the fatal length check of
lines 98-103: the check sits inside `if (length > lengthMax)` and fires
after `nlen`/`total`/`nseq` were already updated.  The error carries the
data of the `fprintf` at line 101: the record id, the offending length and
`MAX_LENGTH`. -/
def step (s : AccState) (r : Record) : Except (String × ℕ × ℕ) AccState :=
  let s1 := preStep s r
  if r.len > s1.lengthMax then
    if r.len > MAX_LENGTH then Except.error (r.id, r.len, MAX_LENGTH)
    else Except.ok (accumBases (r.symbols.zip r.qualities) 0 { s1 with lengthMax := r.len })
  else Except.ok (accumBases (r.symbols.zip r.qualities) 0 s1)

/-- How a run ends: a report printed from the final state followed by
`exit(EXIT_SUCCESS)` (lines 118-153), the fatal `MAX_LENGTH` exit of
lines 100-103, or the fatal exit of lines 113-116 taken when the reader
returned a negative status. -/
inductive Outcome where
  | report (s : AccState)
  | fatalLength (id : String) (len maxAllowed : ℕ)
  | fatalRead

/-- The read loop of lines 95-116: consume the records the reader delivers in
order; `endsInError` tells whether the stream ends with a negative reader
status (malformed record) instead of a clean end of file. -/
def runAll (s : AccState) : List Record → Bool → Outcome
  | [], endsInError => if endsInError then Outcome.fatalRead else Outcome.report s
  | r :: rest, endsInError =>
      match step s r with
      | Except.error (id, len, maxAllowed) => Outcome.fatalLength id len maxAllowed
      | Except.ok s' => runAll s' rest endsInError

/-- The running per-position denominator of the report loop (lines 138-139):
`nseq -= nlen[i]` is executed once per position before position `i` is
printed, starting from the record count.  `long nseq` is signed, hence `ℤ`. -/
def remainingAt (s : AccState) : ℕ → ℤ
  | 0 => (s.nseq : ℤ) - s.nlen 0
  | i + 1 => remainingAt s i - s.nlen (i + 1)

/-! ### Argument dispatch (`main`, lines 84-93)

`print_usage` (lines 64-70) prints the usage text and calls `exit` with the
given code, so each branch below ends the process as recorded. -/

/-- How `main` lines 84-93 leave the argument-handling block. -/
inductive DriverAction where
  | processStream
  | exitFailureUsage
  | exitSuccessUsage
deriving Repr, DecidableEq

/-- Lines 84-93: with no file argument the read loop runs on standard input;
with a file argument that fails to open, an error plus usage is printed and
the process exits with `EXIT_FAILURE`; with a file argument that opens, the
`else` branch of line 90-93 prints usage and exits with `EXIT_SUCCESS`
before the read loop is ever reached. -/
def dispatch (argc : ℕ) (fopenOk : Bool) : DriverAction :=
  if argc = 1 then DriverAction.processStream
  else if fopenOk = false then DriverAction.exitFailureUsage
  else DriverAction.exitSuccessUsage

/-! ### Rounding and fixed-point formatting -/

/-- `lrint` on an exactly-representable argument under the default
`FE_TONEAREST` rounding mode (lines 134 and 146): round to the nearest
integer, ties to the even neighbour. -/
def lrintQ (x : ℚ) : ℤ :=
  let f := ⌊x⌋
  let r := x - f
  if r < 1 / 2 then f
  else if 1 / 2 < r then f + 1
  else if Even f then f else f + 1

/-- Rounding to the nearest integer with ties away from zero, following the
specification words `round(1000 * count / denom)` with
round-half-away-from-zero. -/
def roundAway (x : ℚ) : ℤ := if 0 ≤ x then ⌊x + 1 / 2⌋ else ⌈x - 1 / 2⌉

/-- Line 134: the global per-mille entry printed for quality value `j`,
`lrint(1000*((double)qsum[j]/total))`. -/
def permilleGlobal (s : AccState) (j : ℕ) : ℤ :=
  lrintQ (1000 * (s.qsum j : ℚ) / s.total)

/-- Line 146: the per-position per-mille entry printed for position `i` and
quality value `j`, `lrint(1000*((double)pqsum[i][j]/nseq))`, where `nseq`
has already been depleted to `remainingAt s i`. -/
def permilleAt (s : AccState) (i j : ℕ) : ℤ :=
  lrintQ (1000 * (s.pqsum i j : ℚ) / (remainingAt s i : ℚ))

/-- Lines 129-132: the global base-composition percentages `100*sum[c]/total`. -/
def percentGlobal (s : AccState) (c : ℕ) : ℚ := 100 * (s.sum c : ℚ) / s.total

/-- Lines 141-144: the per-position base-composition percentages
`100*psum[i][c]/nseq` with the depleted denominator. -/
def percentAt (s : AccState) (i c : ℕ) : ℚ :=
  100 * (s.psum i c : ℚ) / (remainingAt s i : ℚ)

/-- Decimal digits of a natural number, most significant first; the fuel
argument only bounds the recursion and any value above the digit count is
enough. -/
def natDigits : ℕ → ℕ → List Char
  | 0, _ => []
  | fuel + 1, n =>
      if n < 10 then [Char.ofNat (48 + n)]
      else natDigits fuel (n / 10) ++ [Char.ofNat (48 + n % 10)]

/-- A natural number printed in decimal. -/
def natRepr (n : ℕ) : String := String.mk (natDigits (n + 1) n)

/-- A natural number printed in decimal and left-padded with zeros to `d`
digits (the fractional digits of a fixed-point print). -/
def natToPadded (n d : ℕ) : String :=
  let t := natRepr n
  String.mk (List.replicate (d - t.length) (Char.ofNat 48)) ++ t

/-- `printf ("%.*f", d, x)` for a nonnegative exactly-representable `x`:
round `x` to `d` fractional digits (nearest, ties to even, as IEEE printf
does) and print with exactly `d` digits after the point. -/
def formatFixed (d : ℕ) (x : ℚ) : String :=
  let n := (lrintQ (x * 10 ^ d)).toNat
  natRepr (n / 10 ^ d) ++ "." ++ natToPadded (n % 10 ^ d) d

/-- Line 120: the average-length field `printf (", %.2f average", total/(float)nseq)`. -/
def averageField (s : AccState) : String := formatFixed 2 ((s.total : ℚ) / s.nseq)

/-! ### Report shape (lines 118-152) -/

/-- Line 118: the two counters printed unconditionally. -/
def reportHeader (s : AccState) : ℕ × ℕ := (s.nseq, s.total)

/-- Lines 119-120: the average/max fields, printed only when `nseq` is
nonzero. -/
def reportAvgMax (s : AccState) : Option (String × ℕ) :=
  if s.nseq = 0 then none else some (averageField s, s.lengthMax)

/-- Lines 123-152: whether the numeric section (standard deviations,
composition, quality distributions, AQ) is printed, guarded by `if (total)`. -/
def reportNumericPresent (s : AccState) : Bool := s.total ≠ 0

/-- Every denominator the report divides by, in print order: `nseq` of the
average field (line 120, guarded by `if (nseq)`), then inside `if (total)`
the `total` and `nseq` of the standard-deviation line (line 125), the
global `total` denominators (lines 130-137) and the depleted per-position
denominators (lines 142-149). -/
def reportDenoms (s : AccState) : List ℤ :=
  (if s.nseq = 0 then [] else [(s.nseq : ℤ)]) ++
    (if s.total = 0 then []
     else (s.total : ℤ) :: (s.nseq : ℤ) ::
       (List.range s.lengthMax).map (remainingAt s))

/-! ### The AQ (average error-rate quality) values (lines 133-137, 145-149) -/

/-- `pow(10, j / (-10.0))`: the error probability encoded by quality value `j`. -/
noncomputable def errProb (j : ℕ) : ℝ := (10 : ℝ) ^ (-(j : ℝ) / 10)

/-- Lines 133-136: `erate += pow(10, j / (-10.0)) * qsum[j]` summed for
`0 ≤ j ≤ qMax`. -/
noncomputable def erateGlobal (s : AccState) : ℝ :=
  ∑ j ∈ Finset.range (s.qMax + 1), (s.qsum j : ℝ) * errProb j

/-- Line 137: the global AQ field `-10*log(erate/total)/log(10)`. -/
noncomputable def aqGlobal (s : AccState) : ℝ :=
  -10 * Real.log (erateGlobal s / s.total) / Real.log 10

/-- Lines 145-148: the per-position error-rate sum
`erate += pow(10, j / (-10.0)) * pqsum[i][j]` for `0 ≤ j ≤ qMax`. -/
noncomputable def erateAt (s : AccState) (i : ℕ) : ℝ :=
  ∑ j ∈ Finset.range (s.qMax + 1), (s.pqsum i j : ℝ) * errProb j

/-- Line 149: the per-position AQ field `-10*log(erate/nseq)/log(10)` with
the depleted denominator. -/
noncomputable def aqAt (s : AccState) (i : ℕ) : ℝ :=
  -10 * Real.log (erateAt s i / (remainingAt s i : ℝ)) / Real.log 10

/-- The specification's mean error probability at global scope: for each
quality value `q` observed `n_q` times, `Σ n_q · 10^(-q/10)`, divided by
the scope's total symbol count (the number of quality symbols observed,
all of which lie in 0..255). -/
noncomputable def specMeanErrGlobal (s : AccState) : ℝ :=
  (∑ j ∈ Finset.range 256, (s.qsum j : ℝ) * errProb j) /
    (∑ j ∈ Finset.range 256, (s.qsum j : ℝ))

/-- The specification's AQ at global scope: `-10 · log10(meanErrorProbability)`. -/
noncomputable def specAqGlobal (s : AccState) : ℝ :=
  -10 * Real.logb 10 (specMeanErrGlobal s)

/-- The specification's mean error probability at the scope of position `i`. -/
noncomputable def specMeanErrAt (s : AccState) (i : ℕ) : ℝ :=
  (∑ j ∈ Finset.range 256, (s.pqsum i j : ℝ) * errProb j) /
    (∑ j ∈ Finset.range 256, (s.pqsum i j : ℝ))

/-- The specification's AQ at the scope of position `i`. -/
noncomputable def specAqAt (s : AccState) (i : ℕ) : ℝ :=
  -10 * Real.logb 10 (specMeanErrAt s i)

/-! ### Array accesses of the accumulation loop (lines 96 and 105-109)

`nlen`, `psum` and `pqsum` are declared with first dimension `MAX_LENGTH`
(line 81), so an index is in bounds exactly when it is `< MAX_LENGTH`. -/

/-- The index used by `++nlen[length]` at line 96. -/
def nlenAccessIndex (r : Record) : ℕ := r.len

/-- The first-dimension indices used by `++psum[i][...]` and
`++pqsum[i][...]` at lines 106-107: every `i` with `0 ≤ i < length`. -/
def positionAccessIndices (r : Record) : List ℕ := List.range r.len

/-- All first-dimension accesses into the `MAX_LENGTH`-sized arrays made
while folding record `r` stay strictly below `MAX_LENGTH`. -/
def accessesInBounds (r : Record) : Prop :=
  nlenAccessIndex r < MAX_LENGTH ∧ ∀ i ∈ positionAccessIndices r, i < MAX_LENGTH

instance : DecidablePred accessesInBounds := fun r => by
  unfold accessesInBounds; infer_instance

/-! ### The record reader

`readFastq` is declared in `readseq.h` and implemented in `readseq.c`,
which is not among the sources; the reader below is modelled from the
specification §4.1. -/

/-- Modelled from the spec: the symbol decoder of the missing `readseq.c`
(`dna2indexConv`), mapping the closed uppercase alphabet A,C,G,T,N to the
codes 0..4 and rejecting every other character. -/
def decodeSymbol (c : Char) : Option ℕ :=
  if c = 'A' then some 0
  else if c = 'C' then some 1
  else if c = 'G' then some 2
  else if c = 'T' then some 3
  else if c = 'N' then some 4
  else none

/-- Modelled from the spec: the quality decoder of the missing `readseq.c` —
a fixed ASCII offset of 33, with the decoded value required to fit in
[0, 255]. -/
def decodeQual (c : Char) : Option ℕ :=
  if 33 ≤ c.toNat ∧ c.toNat ≤ 288 then some (c.toNat - 33) else none

/-- Decode a whole symbol line. -/
def decodeSymbols (l : String) : Option (List ℕ) := l.data.mapM decodeSymbol

/-- Decode a whole quality line. -/
def decodeQuals (l : String) : Option (List ℕ) := l.data.mapM decodeQual

/-- Result of one reader call: a record plus the remaining lines, a clean
end of stream (positive / zero / negative `readFastq` status). -/
inductive ReadOutcome where
  | record (r : Record) (rest : List String)
  | eof
  | err

/-- Modelled from the spec: `readFastq` of the missing `readseq.c`.  Reads
four logical lines (identifier, symbols, separator, qualities); zero
remaining lines is a clean end of stream; fewer than four remaining lines
is a truncated record; a symbol/quality length mismatch or any character
that fails decoding is a malformed record. -/
def readRecord : List String → ReadOutcome
  | [] => ReadOutcome.eof
  | idLine :: symLine :: _sepLine :: qualLine :: rest =>
      if symLine.length ≠ qualLine.length then ReadOutcome.err
      else
        match decodeSymbols symLine, decodeQuals qualLine with
        | some cs, some qs => ReadOutcome.record ⟨idLine, cs, qs⟩ rest
        | _, _ => ReadOutcome.err
  | _ => ReadOutcome.err

/-! ### Concrete inputs used to evaluate the model -/

/-- A single record: one `A` symbol with quality 30. -/
def exRec : Record := ⟨"ex", [0], [30]⟩

/-- A 16-symbol record whose quality histogram has one entry at 4 and
fifteen at 0, so the per-mille value of quality 4 is exactly 62.5. -/
def tieRec : Record := ⟨"t", List.replicate 16 0, 4 :: List.replicate 15 0⟩

/-- A record one symbol longer than `MAX_LENGTH`. -/
def longRec : Record :=
  ⟨"big", List.replicate 100001 0, List.replicate 100001 0⟩

/-- A record of length exactly `MAX_LENGTH`. -/
def maxLenRec : Record :=
  ⟨"edge", List.replicate 100000 0, List.replicate 100000 0⟩

/-- Two records of lengths 1 and 2, total length 3: the average is 1.5. -/
def avgRecs : List Record := [⟨"a", [0], [30]⟩, ⟨"b", [0, 0], [30, 30]⟩]

/-! ### Counter-bump algebra -/

theorem bump_eq_add (f : ℕ → ℕ) (k x : ℕ) :
    bump f k x = f x + if x = k then 1 else 0 := by
  unfold bump; split <;> simp

theorem bump2_eq (g : ℕ → ℕ → ℕ) (i k x : ℕ) :
    bump2 g i k x = if x = i then bump (g x) k else g x := rfl

theorem bump2_eq_add (g : ℕ → ℕ → ℕ) (i k x y : ℕ) :
    bump2 g i k x y = g x y + if x = i ∧ y = k then 1 else 0 := by
  unfold bump2 bump
  by_cases hx : x = i <;> by_cases hy : y = k <;> simp [hx, hy]

/-- Indicator sums over an initial segment pick out a single index. -/
theorem sum_ite_indicator (n k : ℕ) (hk : k < n) :
    (∑ c ∈ Finset.range n, if c = k then 1 else 0) = 1 := by
  rw [Finset.sum_ite_eq' (Finset.range n) k (fun _ => 1)]
  simp [Finset.mem_range.mpr hk]

/-- Counting every residue below a bound recovers the list length. -/
theorem sum_count_eq_length (l : List ℕ) (n : ℕ) (h : ∀ x ∈ l, x < n) :
    (∑ c ∈ Finset.range n, l.count c) = l.length := by
  induction l with
  | nil => simp
  | cons a t ih =>
      have ha : a < n := h a (List.mem_cons_self a t)
      have ht : ∀ x ∈ t, x < n := fun x hx => h x (List.mem_cons_of_mem a hx)
      calc (∑ c ∈ Finset.range n, (a :: t).count c)
          = ∑ c ∈ Finset.range n, (t.count c + if a = c then 1 else 0) := by
            refine Finset.sum_congr rfl fun c _ => ?_
            rw [List.count_cons]
            simp only [beq_iff_eq]
        _ = t.length + 1 := by
            rw [Finset.sum_add_distrib, ih ht,
              Finset.sum_ite_eq (Finset.range n) a (fun _ => 1)]
            simp [Finset.mem_range.mpr ha]
        _ = (a :: t).length := by simp

/-! ### What `accumBases` does to each field -/

theorem accumBases_nseq : ∀ (bs : List (ℕ × ℕ)) (i0 : ℕ) (s : AccState),
    (accumBases bs i0 s).nseq = s.nseq
  | [], _, _ => rfl
  | (_, _) :: rest, i0, s => by
      rw [accumBases, accumBases_nseq rest]

theorem accumBases_total : ∀ (bs : List (ℕ × ℕ)) (i0 : ℕ) (s : AccState),
    (accumBases bs i0 s).total = s.total
  | [], _, _ => rfl
  | (_, _) :: rest, i0, s => by
      rw [accumBases, accumBases_total rest]

theorem accumBases_lengthMax : ∀ (bs : List (ℕ × ℕ)) (i0 : ℕ) (s : AccState),
    (accumBases bs i0 s).lengthMax = s.lengthMax
  | [], _, _ => rfl
  | (_, _) :: rest, i0, s => by
      rw [accumBases, accumBases_lengthMax rest]

theorem accumBases_nlen : ∀ (bs : List (ℕ × ℕ)) (i0 : ℕ) (s : AccState),
    (accumBases bs i0 s).nlen = s.nlen
  | [], _, _ => rfl
  | (_, _) :: rest, i0, s => by
      rw [accumBases, accumBases_nlen rest]

theorem accumBases_sum : ∀ (bs : List (ℕ × ℕ)) (i0 : ℕ) (s : AccState) (c : ℕ),
    (accumBases bs i0 s).sum c = s.sum c + (bs.map Prod.fst).count c
  | [], _, _, _ => by simp [accumBases]
  | (c0, q0) :: rest, i0, s, c => by
      rw [accumBases, accumBases_sum rest]
      simp only [List.map_cons, List.count_cons, bump_eq_add, beq_iff_eq]
      by_cases h : c = c0 <;> simp [h] <;> omega

theorem accumBases_qsum : ∀ (bs : List (ℕ × ℕ)) (i0 : ℕ) (s : AccState) (j : ℕ),
    (accumBases bs i0 s).qsum j = s.qsum j + (bs.map Prod.snd).count j
  | [], _, _, _ => by simp [accumBases]
  | (c0, q0) :: rest, i0, s, j => by
      rw [accumBases, accumBases_qsum rest]
      simp only [List.map_cons, List.count_cons, bump_eq_add, beq_iff_eq]
      by_cases h : j = q0 <;> simp [h] <;> omega

theorem accumBases_qMax : ∀ (bs : List (ℕ × ℕ)) (i0 : ℕ) (s : AccState),
    (accumBases bs i0 s).qMax = (bs.map Prod.snd).foldl max s.qMax
  | [], _, _ => rfl
  | (c0, q0) :: rest, i0, s => by
      rw [accumBases, accumBases_qMax rest]
      rfl

theorem accumBases_psum_sum : ∀ (bs : List (ℕ × ℕ)) (i0 : ℕ) (s : AccState) (i : ℕ),
    (∀ p ∈ bs, p.1 < 5) →
    (∑ c ∈ Finset.range 5, (accumBases bs i0 s).psum i c) =
      (∑ c ∈ Finset.range 5, s.psum i c) + (if i0 ≤ i ∧ i < i0 + bs.length then 1 else 0)
  | [], _, _, _, _ => by simp [accumBases]
  | (c0, q0) :: rest, i0, s, i, h => by
      have hc0 : c0 < 5 := h (c0, q0) (List.mem_cons_self _ _)
      have hrest : ∀ p ∈ rest, p.1 < 5 := fun p hp => h p (List.mem_cons_of_mem _ hp)
      rw [accumBases, accumBases_psum_sum rest _ _ _ hrest]
      have key : (∑ c ∈ Finset.range 5, bump2 s.psum i0 c0 i c) =
          (∑ c ∈ Finset.range 5, s.psum i c) + (if i = i0 then 1 else 0) := by
        simp only [bump2_eq_add, Finset.sum_add_distrib]
        by_cases hi : i = i0
        · simp only [hi, true_and, if_true]
          rw [sum_ite_indicator 5 c0 hc0]
        · simp [hi]
      simp only [key, List.length_cons]
      split_ifs <;> omega

theorem accumBases_pqsum_sum : ∀ (bs : List (ℕ × ℕ)) (i0 : ℕ) (s : AccState) (i : ℕ),
    (∀ p ∈ bs, p.2 ≤ 255) →
    (∑ j ∈ Finset.range 256, (accumBases bs i0 s).pqsum i j) =
      (∑ j ∈ Finset.range 256, s.pqsum i j) + (if i0 ≤ i ∧ i < i0 + bs.length then 1 else 0)
  | [], _, _, _, _ => by simp [accumBases]
  | (c0, q0) :: rest, i0, s, i, h => by
      have hq0 : q0 < 256 := Nat.lt_succ_of_le (h (c0, q0) (List.mem_cons_self _ _))
      have hrest : ∀ p ∈ rest, p.2 ≤ 255 := fun p hp => h p (List.mem_cons_of_mem _ hp)
      rw [accumBases, accumBases_pqsum_sum rest _ _ _ hrest]
      have key : (∑ j ∈ Finset.range 256, bump2 s.pqsum i0 q0 i j) =
          (∑ j ∈ Finset.range 256, s.pqsum i j) + (if i = i0 then 1 else 0) := by
        simp only [bump2_eq_add, Finset.sum_add_distrib]
        by_cases hi : i = i0
        · simp only [hi, true_and, if_true]
          rw [sum_ite_indicator 256 q0 hq0]
        · simp [hi]
      simp only [key, List.length_cons]
      split_ifs <;> omega

theorem accumBases_pqsum_const : ∀ (bs : List (ℕ × ℕ)) (i0 : ℕ) (s : AccState) (i j q : ℕ),
    (∀ p ∈ bs, p.2 = q) →
    (accumBases bs i0 s).pqsum i j =
      s.pqsum i j + (if j = q ∧ i0 ≤ i ∧ i < i0 + bs.length then 1 else 0)
  | [], _, _, _, _, _, _ => by simp [accumBases]
  | (c0, q0) :: rest, i0, s, i, j, q, h => by
      have hq0 : q0 = q := h (c0, q0) (List.mem_cons_self _ _)
      have hrest : ∀ p ∈ rest, p.2 = q := fun p hp => h p (List.mem_cons_of_mem _ hp)
      rw [accumBases, accumBases_pqsum_const rest _ _ _ _ _ hrest]
      simp only [bump2_eq_add, hq0, List.length_cons]
      split_ifs <;> omega

theorem accumBases_pqsum_not_mem : ∀ (bs : List (ℕ × ℕ)) (i0 : ℕ) (s : AccState) (i j : ℕ),
    j ∉ bs.map Prod.snd →
    (accumBases bs i0 s).pqsum i j = s.pqsum i j
  | [], _, _, _, _, _ => rfl
  | (c0, q0) :: rest, i0, s, i, j, h => by
      have hj : j ≠ q0 := by
        intro heq; exact h (by simp [heq])
      have hrest : j ∉ rest.map Prod.snd := fun hm => h (by simp at hm ⊢; right; exact hm)
      rw [accumBases, accumBases_pqsum_not_mem rest _ _ _ _ hrest]
      simp [bump2_eq_add, hj]

/-! ### Folding `max` over a list -/

theorem le_foldl_max : ∀ (l : List ℕ) (b : ℕ), b ≤ l.foldl max b
  | [], _ => le_refl _
  | a :: t, b => le_trans (le_max_left b a) (le_foldl_max t (max b a))

theorem mem_le_foldl_max : ∀ (l : List ℕ) (b x : ℕ), x ∈ l → x ≤ l.foldl max b
  | [], _, _, hx => absurd hx (List.not_mem_nil _)
  | a :: t, b, x, hx => by
      rcases List.mem_cons.mp hx with h | h
      · subst h
        exact le_trans (le_max_right b x) (le_foldl_max t _)
      · exact mem_le_foldl_max t _ x h

theorem foldl_max_le : ∀ (l : List ℕ) (b m : ℕ), b ≤ m → (∀ x ∈ l, x ≤ m) → l.foldl max b ≤ m
  | [], _, _, hb, _ => hb
  | a :: t, b, m, hb, hl => by
      refine foldl_max_le t _ m (max_le hb (hl a (List.mem_cons_self _ _))) ?_
      exact fun x hx => hl x (List.mem_cons_of_mem _ hx)

theorem lt_foldl_max_attained : ∀ (l : List ℕ) (b i : ℕ),
    i < l.foldl max b → i < b ∨ ∃ x ∈ l, i < x
  | [], _, _, h => Or.inl h
  | a :: t, b, i, h => by
      rcases lt_foldl_max_attained t (max b a) i h with h' | ⟨x, hx, hix⟩
      · rcases lt_max_iff.mp h' with h'' | h''
        · exact Or.inl h''
        · exact Or.inr ⟨a, List.mem_cons_self _ _, h''⟩
      · exact Or.inr ⟨x, List.mem_cons_of_mem _ hx, hix⟩

/-! ### What one `accumulate` step does to each field -/

theorem withLengthMax_nseq (s : AccState) (r : Record) :
    (withLengthMax s r).nseq = s.nseq := by
  unfold withLengthMax; split <;> rfl

theorem withLengthMax_total (s : AccState) (r : Record) :
    (withLengthMax s r).total = s.total := by
  unfold withLengthMax; split <;> rfl

theorem withLengthMax_nlen (s : AccState) (r : Record) :
    (withLengthMax s r).nlen = s.nlen := by
  unfold withLengthMax; split <;> rfl

theorem withLengthMax_qMax (s : AccState) (r : Record) :
    (withLengthMax s r).qMax = s.qMax := by
  unfold withLengthMax; split <;> rfl

theorem withLengthMax_sum (s : AccState) (r : Record) :
    (withLengthMax s r).sum = s.sum := by
  unfold withLengthMax; split <;> rfl

theorem withLengthMax_qsum (s : AccState) (r : Record) :
    (withLengthMax s r).qsum = s.qsum := by
  unfold withLengthMax; split <;> rfl

theorem withLengthMax_psum (s : AccState) (r : Record) :
    (withLengthMax s r).psum = s.psum := by
  unfold withLengthMax; split <;> rfl

theorem withLengthMax_pqsum (s : AccState) (r : Record) :
    (withLengthMax s r).pqsum = s.pqsum := by
  unfold withLengthMax; split <;> rfl

theorem withLengthMax_lengthMax (s : AccState) (r : Record) :
    (withLengthMax s r).lengthMax = max s.lengthMax r.len := by
  unfold withLengthMax
  split <;> simp <;> omega

theorem accumulate_nseq (s : AccState) (r : Record) :
    (accumulate s r).nseq = s.nseq + 1 := by
  unfold accumulate
  rw [accumBases_nseq, withLengthMax_nseq]
  rfl

theorem accumulate_total (s : AccState) (r : Record) :
    (accumulate s r).total = s.total + r.len := by
  unfold accumulate
  rw [accumBases_total, withLengthMax_total]
  rfl

theorem accumulate_nlen (s : AccState) (r : Record) (L : ℕ) :
    (accumulate s r).nlen L = s.nlen L + (if L = r.len then 1 else 0) := by
  unfold accumulate
  rw [accumBases_nlen, withLengthMax_nlen]
  exact bump_eq_add s.nlen r.len L

theorem accumulate_lengthMax (s : AccState) (r : Record) :
    (accumulate s r).lengthMax = max s.lengthMax r.len := by
  unfold accumulate
  rw [accumBases_lengthMax, withLengthMax_lengthMax]
  rfl

theorem accumulate_qMax (s : AccState) (r : Record) :
    (accumulate s r).qMax = ((r.symbols.zip r.qualities).map Prod.snd).foldl max s.qMax := by
  unfold accumulate
  rw [accumBases_qMax, withLengthMax_qMax]
  rfl

theorem accumulate_sum (s : AccState) (r : Record) (c : ℕ) :
    (accumulate s r).sum c = s.sum c + ((r.symbols.zip r.qualities).map Prod.fst).count c := by
  unfold accumulate
  rw [accumBases_sum, withLengthMax_sum]
  rfl

theorem accumulate_qsum (s : AccState) (r : Record) (j : ℕ) :
    (accumulate s r).qsum j = s.qsum j + ((r.symbols.zip r.qualities).map Prod.snd).count j := by
  unfold accumulate
  rw [accumBases_qsum, withLengthMax_qsum]
  rfl

theorem zip_fst_lt (r : Record) (h : ∀ c ∈ r.symbols, c < 5) :
    ∀ p ∈ r.symbols.zip r.qualities, p.1 < 5 := by
  rintro ⟨a, b⟩ hp
  exact h a (List.of_mem_zip hp).1

theorem zip_snd_le (r : Record) (h : ∀ q ∈ r.qualities, q ≤ 255) :
    ∀ p ∈ r.symbols.zip r.qualities, p.2 ≤ 255 := by
  rintro ⟨a, b⟩ hp
  exact h b (List.of_mem_zip hp).2

theorem zip_length_of_valid (r : Record) (h : r.symbols.length = r.qualities.length) :
    (r.symbols.zip r.qualities).length = r.len := by
  simp [List.length_zip, Record.len, h]

theorem accumulate_psum_sum (s : AccState) (r : Record) (i : ℕ) (hv : ValidRecord r) :
    (∑ c ∈ Finset.range 5, (accumulate s r).psum i c) =
      (∑ c ∈ Finset.range 5, s.psum i c) + (if i < r.len then 1 else 0) := by
  obtain ⟨hlen, hsym, _⟩ := hv
  unfold accumulate
  rw [accumBases_psum_sum _ _ _ _ (zip_fst_lt r hsym), withLengthMax_psum]
  rw [zip_length_of_valid r hlen]
  simp only [Nat.zero_le, true_and, Nat.zero_add]
  rfl

theorem accumulate_pqsum_sum (s : AccState) (r : Record) (i : ℕ) (hv : ValidRecord r) :
    (∑ j ∈ Finset.range 256, (accumulate s r).pqsum i j) =
      (∑ j ∈ Finset.range 256, s.pqsum i j) + (if i < r.len then 1 else 0) := by
  obtain ⟨hlen, _, hq⟩ := hv
  unfold accumulate
  rw [accumBases_pqsum_sum _ _ _ _ (zip_snd_le r hq), withLengthMax_pqsum]
  rw [zip_length_of_valid r hlen]
  simp only [Nat.zero_le, true_and, Nat.zero_add]
  rfl

theorem accumulate_pqsum_const (s : AccState) (r : Record) (i j q : ℕ)
    (hlen : r.symbols.length = r.qualities.length)
    (hallq : ∀ x ∈ r.qualities, x = q) :
    (accumulate s r).pqsum i j =
      s.pqsum i j + (if j = q ∧ i < r.len then 1 else 0) := by
  unfold accumulate
  have hz : ∀ p ∈ r.symbols.zip r.qualities, p.2 = q := by
    rintro ⟨a, b⟩ hp
    exact hallq b (List.of_mem_zip hp).2
  rw [accumBases_pqsum_const _ _ _ _ _ _ hz, withLengthMax_pqsum]
  rw [zip_length_of_valid r hlen]
  simp only [Nat.zero_le, true_and, Nat.zero_add]
  rfl

theorem accumulate_pqsum_not_mem (s : AccState) (r : Record) (i j : ℕ)
    (h : j ∉ ((r.symbols.zip r.qualities).map Prod.snd)) :
    (accumulate s r).pqsum i j = s.pqsum i j := by
  unfold accumulate
  rw [accumBases_pqsum_not_mem _ _ _ _ _ h, withLengthMax_pqsum]
  rfl

/-! ### What folding a whole record list does -/

theorem foldl_nseq : ∀ (rs : List Record) (s : AccState),
    (rs.foldl accumulate s).nseq = s.nseq + rs.length
  | [], s => by simp
  | r :: rest, s => by
      rw [List.foldl_cons, foldl_nseq rest, accumulate_nseq]
      simp only [List.length_cons]
      omega

theorem foldl_total : ∀ (rs : List Record) (s : AccState),
    (rs.foldl accumulate s).total = s.total + (rs.map Record.len).sum
  | [], s => by simp
  | r :: rest, s => by
      rw [List.foldl_cons, foldl_total rest, accumulate_total]
      simp only [List.map_cons, List.sum_cons]
      omega

theorem foldl_nlen : ∀ (rs : List Record) (s : AccState) (L : ℕ),
    (rs.foldl accumulate s).nlen L = s.nlen L + (rs.map Record.len).count L
  | [], s, L => by simp
  | r :: rest, s, L => by
      rw [List.foldl_cons, foldl_nlen rest, accumulate_nlen]
      simp only [List.map_cons, List.count_cons, beq_iff_eq]
      split_ifs <;> omega

theorem foldl_lengthMax : ∀ (rs : List Record) (s : AccState),
    (rs.foldl accumulate s).lengthMax = (rs.map Record.len).foldl max s.lengthMax
  | [], s => by simp
  | r :: rest, s => by
      rw [List.foldl_cons, foldl_lengthMax rest, accumulate_lengthMax]
      simp only [List.map_cons, List.foldl_cons]

theorem foldl_qMax : ∀ (rs : List Record) (s : AccState),
    (rs.foldl accumulate s).qMax =
      rs.foldl (fun m r => ((r.symbols.zip r.qualities).map Prod.snd).foldl max m) s.qMax
  | [], s => by simp
  | r :: rest, s => by
      rw [List.foldl_cons, foldl_qMax rest, accumulate_qMax, List.foldl_cons]

theorem foldl_sum : ∀ (rs : List Record) (s : AccState) (c : ℕ),
    (rs.foldl accumulate s).sum c =
      s.sum c + (rs.map (fun r => ((r.symbols.zip r.qualities).map Prod.fst).count c)).sum
  | [], s, c => by simp
  | r :: rest, s, c => by
      rw [List.foldl_cons, foldl_sum rest, accumulate_sum]
      simp only [List.map_cons, List.sum_cons]
      omega

theorem foldl_qsum : ∀ (rs : List Record) (s : AccState) (j : ℕ),
    (rs.foldl accumulate s).qsum j =
      s.qsum j + (rs.map (fun r => ((r.symbols.zip r.qualities).map Prod.snd).count j)).sum
  | [], s, j => by simp
  | r :: rest, s, j => by
      rw [List.foldl_cons, foldl_qsum rest, accumulate_qsum]
      simp only [List.map_cons, List.sum_cons]
      omega

theorem foldl_psum_sum : ∀ (rs : List Record) (s : AccState) (i : ℕ),
    (∀ r ∈ rs, ValidRecord r) →
    (∑ c ∈ Finset.range 5, (rs.foldl accumulate s).psum i c) =
      (∑ c ∈ Finset.range 5, s.psum i c) + rs.countP (fun r => decide (i < r.len))
  | [], s, i, _ => by simp
  | r :: rest, s, i, hv => by
      have hr : ValidRecord r := hv r (List.mem_cons_self _ _)
      have hrest : ∀ x ∈ rest, ValidRecord x := fun x hx => hv x (List.mem_cons_of_mem _ hx)
      rw [List.foldl_cons, foldl_psum_sum rest _ _ hrest, accumulate_psum_sum s r i hr]
      simp only [List.countP_cons, decide_eq_true_eq]
      split_ifs <;> omega

theorem foldl_pqsum_sum : ∀ (rs : List Record) (s : AccState) (i : ℕ),
    (∀ r ∈ rs, ValidRecord r) →
    (∑ j ∈ Finset.range 256, (rs.foldl accumulate s).pqsum i j) =
      (∑ j ∈ Finset.range 256, s.pqsum i j) + rs.countP (fun r => decide (i < r.len))
  | [], s, i, _ => by simp
  | r :: rest, s, i, hv => by
      have hr : ValidRecord r := hv r (List.mem_cons_self _ _)
      have hrest : ∀ x ∈ rest, ValidRecord x := fun x hx => hv x (List.mem_cons_of_mem _ hx)
      rw [List.foldl_cons, foldl_pqsum_sum rest _ _ hrest, accumulate_pqsum_sum s r i hr]
      simp only [List.countP_cons, decide_eq_true_eq]
      split_ifs <;> omega

theorem foldl_pqsum_const : ∀ (rs : List Record) (s : AccState) (i j q : ℕ),
    (∀ r ∈ rs, r.symbols.length = r.qualities.length) →
    (∀ r ∈ rs, ∀ x ∈ r.qualities, x = q) →
    (rs.foldl accumulate s).pqsum i j =
      s.pqsum i j + (if j = q then rs.countP (fun r => decide (i < r.len)) else 0)
  | [], s, i, j, q, _, _ => by simp
  | r :: rest, s, i, j, q, hlen, hallq => by
      have h1 : r.symbols.length = r.qualities.length := hlen r (List.mem_cons_self _ _)
      have h2 : ∀ x ∈ r.qualities, x = q := hallq r (List.mem_cons_self _ _)
      have hlen' : ∀ x ∈ rest, x.symbols.length = x.qualities.length :=
        fun x hx => hlen x (List.mem_cons_of_mem _ hx)
      have hallq' : ∀ x ∈ rest, ∀ y ∈ x.qualities, y = q :=
        fun x hx => hallq x (List.mem_cons_of_mem _ hx)
      rw [List.foldl_cons, foldl_pqsum_const rest _ _ _ _ hlen' hallq',
        accumulate_pqsum_const s r i j q h1 h2]
      simp only [List.countP_cons, decide_eq_true_eq]
      split_ifs <;> omega

/-- `qMax` never decreases while records are folded in. -/
theorem foldl_qMax_mono : ∀ (rs : List Record) (s : AccState),
    s.qMax ≤ (rs.foldl accumulate s).qMax
  | [], _ => le_refl _
  | r :: rest, s => by
      refine le_trans ?_ (foldl_qMax_mono rest (accumulate s r))
      rw [accumulate_qMax]
      exact le_foldl_max _ _

/-- Quality counters above the final `qMax` are never touched. -/
theorem foldl_qsum_high : ∀ (rs : List Record) (s : AccState) (j : ℕ),
    (rs.foldl accumulate s).qMax < j →
    (rs.foldl accumulate s).qsum j = s.qsum j ∧
      ∀ i, (rs.foldl accumulate s).pqsum i j = s.pqsum i j
  | [], _, _, _ => ⟨rfl, fun _ => rfl⟩
  | r :: rest, s, j, h => by
      rw [List.foldl_cons] at h ⊢
      have hstep : (accumulate s r).qMax < j :=
        lt_of_le_of_lt (foldl_qMax_mono rest (accumulate s r)) h
      have hnot : j ∉ (r.symbols.zip r.qualities).map Prod.snd := by
        intro hmem
        have : j ≤ (accumulate s r).qMax := by
          rw [accumulate_qMax]
          exact mem_le_foldl_max _ _ _ hmem
        omega
      obtain ⟨h1, h2⟩ := foldl_qsum_high rest (accumulate s r) j h
      refine ⟨?_, fun i => ?_⟩
      · rw [h1, accumulate_qsum, List.count_eq_zero_of_not_mem hnot, Nat.add_zero]
      · rw [h2 i, accumulate_pqsum_not_mem s r i j hnot]

/-! ### The same facts at the zero-initialised start state -/

theorem fold_nseq (rs : List Record) : (foldRecords rs).nseq = rs.length := by
  rw [foldRecords, foldl_nseq]; simp [initState]

theorem fold_total (rs : List Record) : (foldRecords rs).total = (rs.map Record.len).sum := by
  rw [foldRecords, foldl_total]; simp [initState]

theorem fold_nlen (rs : List Record) (L : ℕ) :
    (foldRecords rs).nlen L = (rs.map Record.len).count L := by
  rw [foldRecords, foldl_nlen]; simp [initState]

theorem fold_lengthMax (rs : List Record) :
    (foldRecords rs).lengthMax = (rs.map Record.len).foldl max 0 := by
  rw [foldRecords, foldl_lengthMax]; simp [initState]

theorem fold_psum_sum (rs : List Record) (i : ℕ) (hv : ∀ r ∈ rs, ValidRecord r) :
    (∑ c ∈ Finset.range 5, (foldRecords rs).psum i c) =
      rs.countP (fun r => decide (i < r.len)) := by
  rw [foldRecords, foldl_psum_sum rs initState i hv]
  simp [initState]

theorem fold_pqsum_sum (rs : List Record) (i : ℕ) (hv : ∀ r ∈ rs, ValidRecord r) :
    (∑ j ∈ Finset.range 256, (foldRecords rs).pqsum i j) =
      rs.countP (fun r => decide (i < r.len)) := by
  rw [foldRecords, foldl_pqsum_sum rs initState i hv]
  simp [initState]

theorem fold_qsum_high (rs : List Record) (j : ℕ) (h : (foldRecords rs).qMax < j) :
    (foldRecords rs).qsum j = 0 ∧ ∀ i, (foldRecords rs).pqsum i j = 0 := by
  have := foldl_qsum_high rs initState j (by rw [foldRecords] at h; exact h)
  rw [foldRecords]
  exact this

/-! ### The per-position denominator -/

theorem remainingAt_closed (s : AccState) : ∀ i : ℕ,
    remainingAt s i = (s.nseq : ℤ) - ∑ k ∈ Finset.range (i + 1), (s.nlen k : ℤ)
  | 0 => by simp [remainingAt]
  | i + 1 => by
      have hs : (∑ k ∈ Finset.range (i + 1 + 1), (s.nlen k : ℤ)) =
          (∑ k ∈ Finset.range (i + 1), (s.nlen k : ℤ)) + s.nlen (i + 1) :=
        Finset.sum_range_succ _ _
      rw [remainingAt, remainingAt_closed s i, hs]
      ring

/-- Counting every length below a bound in the length multiset. -/
theorem sum_count_lt (l : List ℕ) (n : ℕ) :
    (∑ k ∈ Finset.range n, l.count k) = l.countP (fun x => decide (x < n)) := by
  induction l with
  | nil => simp
  | cons a t ih =>
      calc (∑ k ∈ Finset.range n, (a :: t).count k)
          = ∑ k ∈ Finset.range n, (t.count k + if a = k then 1 else 0) := by
            refine Finset.sum_congr rfl fun k _ => ?_
            rw [List.count_cons]
            simp only [beq_iff_eq]
        _ = t.countP (fun x => decide (x < n)) + if a < n then 1 else 0 := by
            rw [Finset.sum_add_distrib, ih,
              Finset.sum_ite_eq (Finset.range n) a (fun _ => 1)]
            simp [Finset.mem_range]
        _ = (a :: t).countP (fun x => decide (x < n)) := by
            rw [List.countP_cons]
            simp

/-- The denominator the report loop uses at position `i` is exactly the number
of records whose length exceeds `i`. -/
theorem remaining_eq_countP (rs : List Record) (i : ℕ) :
    remainingAt (foldRecords rs) i = rs.countP (fun r => decide (i < r.len)) := by
  rw [remainingAt_closed, fold_nseq]
  have hsum : (∑ k ∈ Finset.range (i + 1), ((foldRecords rs).nlen k : ℤ)) =
      ((rs.countP (fun r => decide (r.len < i + 1)) : ℕ) : ℤ) := by
    rw [← Nat.cast_sum]
    congr 1
    calc (∑ k ∈ Finset.range (i + 1), (foldRecords rs).nlen k)
        = ∑ k ∈ Finset.range (i + 1), (rs.map Record.len).count k := by
          refine Finset.sum_congr rfl fun k _ => fold_nlen rs k
      _ = (rs.map Record.len).countP (fun x => decide (x < i + 1)) := sum_count_lt _ _
      _ = rs.countP (fun r => decide (r.len < i + 1)) := by
          rw [List.countP_map]
          rfl
  rw [hsum]
  have hsplit : rs.length = rs.countP (fun r => decide (r.len < i + 1)) +
      rs.countP (fun r => decide (i < r.len)) := by
    rw [List.length_eq_countP_add_countP (fun r => decide (r.len < i + 1))]
    congr 1
    refine List.countP_congr fun r _ => ?_
    simp only [Bool.not_eq_true', decide_eq_false_iff_not, decide_eq_true_eq]
    omega
  omega

/-- At every position the report loop prints, the depleted denominator is
still positive. -/
theorem remaining_pos (rs : List Record) (i : ℕ)
    (hi : i < (foldRecords rs).lengthMax) : 0 < remainingAt (foldRecords rs) i := by
  rw [remaining_eq_countP]
  rw [fold_lengthMax] at hi
  rcases lt_foldl_max_attained _ _ _ hi with h | ⟨x, hx, hix⟩
  · omega
  · obtain ⟨r, hr, hrx⟩ := List.mem_map.mp hx
    have : 0 < rs.countP (fun r => decide (i < r.len)) := by
      rw [List.countP_pos_iff]
      exact ⟨r, hr, by simp [hrx ▸ hix]⟩
    exact_mod_cast this

/-! ### Properties of the two rounding modes -/

/-- `lrint` lands on a nearest integer. -/
theorem lrintQ_near (x : ℚ) : |((lrintQ x : ℤ) : ℚ) - x| ≤ 1 / 2 := by
  unfold lrintQ
  simp only []
  have h0 : ((⌊x⌋ : ℤ) : ℚ) ≤ x := Int.floor_le x
  have h1 : x < ((⌊x⌋ : ℤ) : ℚ) + 1 := Int.lt_floor_add_one x
  split_ifs with hlt hgt hev <;> rw [abs_le] <;> constructor <;> push_cast <;> linarith

/-- At an exact half-way point `lrint` picks the even neighbour. -/
theorem lrintQ_tie_even (x : ℚ) (h : x - ⌊x⌋ = 1 / 2) : Even (lrintQ x) := by
  unfold lrintQ
  simp only []
  split_ifs with hlt hgt hev
  · linarith
  · linarith
  · exact hev
  · exact Int.even_add_one.mpr hev

/-- Away from half-way points, `lrint` and round-half-away-from-zero agree
(stated for the nonnegative arguments the report produces). -/
theorem lrintQ_eq_roundAway (x : ℚ) (hx : 0 ≤ x) (h : x - ⌊x⌋ ≠ 1 / 2) :
    lrintQ x = roundAway x := by
  unfold lrintQ roundAway
  simp only []
  rw [if_pos hx]
  have h0 : ((⌊x⌋ : ℤ) : ℚ) ≤ x := Int.floor_le x
  have h1 : x < ((⌊x⌋ : ℤ) : ℚ) + 1 := Int.lt_floor_add_one x
  split_ifs with hlt hgt hev
  · symm
    rw [Int.floor_eq_iff]
    constructor <;> push_cast <;> linarith
  · symm
    rw [Int.floor_eq_iff]
    constructor <;> push_cast <;> linarith
  · exfalso; exact h (by linarith)
  · exfalso; exact h (by linarith)

/-- `lrint` of an integer value is that integer. -/
theorem lrintQ_intCast (n : ℤ) : lrintQ ((n : ℤ) : ℚ) = n := by
  unfold lrintQ
  simp only []
  rw [Int.floor_intCast, sub_self]
  rw [if_pos (by norm_num : (0 : ℚ) < 1 / 2)]

/-- `lrint` of an exact half: the even neighbour wins. -/
theorem lrintQ_half (n : ℤ) : lrintQ (((n : ℤ) : ℚ) + 1 / 2) = if Even n then n else n + 1 := by
  have hf : ⌊((n : ℤ) : ℚ) + 1 / 2⌋ = n := by
    rw [Int.floor_eq_iff]
    constructor
    · linarith
    · push_cast
      linarith
  unfold lrintQ
  simp only []
  rw [hf]
  have hr : (((n : ℤ) : ℚ) + 1 / 2) - ((n : ℤ) : ℚ) = 1 / 2 := by ring
  rw [hr]
  rw [if_neg (by norm_num : ¬((1 : ℚ) / 2 < 1 / 2)),
    if_neg (by norm_num : ¬((1 : ℚ) / 2 < 1 / 2))]

/-! ### The read loop -/

/-- A record within the compiled-in bound is folded in without aborting. -/
theorem step_ok (s : AccState) (r : Record) (h : r.len ≤ MAX_LENGTH) :
    step s r = Except.ok (accumulate s r) := by
  simp only [step]
  split_ifs with h1 h2
  · exact absurd h2 (by omega)
  · unfold accumulate withLengthMax
    rw [if_pos h1]
  · unfold accumulate withLengthMax
    rw [if_neg h1]

/-- A cleanly terminated stream of in-bound records is fully folded and
reported. -/
theorem runAll_ok : ∀ (rs : List Record) (s : AccState),
    (∀ r ∈ rs, r.len ≤ MAX_LENGTH) →
    runAll s rs false = Outcome.report (rs.foldl accumulate s)
  | [], s, _ => by simp [runAll]
  | r :: rest, s, h => by
      rw [runAll, step_ok s r (h r (List.mem_cons_self _ _))]
      exact runAll_ok rest _ (fun x hx => h x (List.mem_cons_of_mem _ hx))

/-- A stream ending in a negative reader status never reaches the report. -/
theorem runAll_err_no_report : ∀ (rs : List Record) (s s' : AccState),
    runAll s rs true ≠ Outcome.report s'
  | [], s, s' => by simp [runAll]
  | r :: rest, s, s' => by
      rw [runAll]
      cases hstep : step s r with
      | error e =>
          obtain ⟨id, len, m⟩ := e
          simp
      | ok s2 => simpa using runAll_err_no_report rest s2 s'

/-- The first record beyond `MAX_LENGTH` aborts the run with the fatal
message data, no matter how many in-bound records preceded it. -/
theorem runAll_fatal : ∀ (pre : List Record) (s : AccState) (r : Record)
    (rest : List Record) (e : Bool),
    s.lengthMax ≤ MAX_LENGTH →
    (∀ p ∈ pre, p.len ≤ MAX_LENGTH) →
    MAX_LENGTH < r.len →
    runAll s (pre ++ r :: rest) e = Outcome.fatalLength r.id r.len MAX_LENGTH
  | [], s, r, rest, e, hs, _, hr => by
      rw [List.nil_append, runAll]
      have h1 : r.len > (preStep s r).lengthMax := by
        show r.len > s.lengthMax
        omega
      simp only [step]
      rw [if_pos h1, if_pos (by omega : r.len > MAX_LENGTH)]
  | p :: pre, s, r, rest, e, hs, hpre, hr => by
      rw [List.cons_append, runAll, step_ok s p (hpre p (List.mem_cons_self _ _))]
      refine runAll_fatal pre _ r rest e ?_
        (fun x hx => hpre x (List.mem_cons_of_mem _ hx)) hr
      rw [accumulate_lengthMax]
      have := hpre p (List.mem_cons_self _ _)
      omega

/-! ### Totals of the quality and base histograms -/

theorem foldl_sum_total : ∀ (rs : List Record) (s : AccState),
    (∀ r ∈ rs, ValidRecord r) →
    (∑ c ∈ Finset.range 5, (rs.foldl accumulate s).sum c) =
      (∑ c ∈ Finset.range 5, s.sum c) + (rs.map Record.len).sum
  | [], s, _ => by simp
  | r :: rest, s, hv => by
      obtain ⟨hlen, hsym, _⟩ := hv r (List.mem_cons_self _ _)
      have hrest : ∀ x ∈ rest, ValidRecord x := fun x hx => hv x (List.mem_cons_of_mem _ hx)
      rw [List.foldl_cons, foldl_sum_total rest _ hrest]
      have hstep : (∑ c ∈ Finset.range 5, (accumulate s r).sum c) =
          (∑ c ∈ Finset.range 5, s.sum c) + r.len := by
        have hcnt : (∑ c ∈ Finset.range 5,
            ((r.symbols.zip r.qualities).map Prod.fst).count c) =
            ((r.symbols.zip r.qualities).map Prod.fst).length := by
          refine sum_count_eq_length _ _ ?_
          intro x hx
          obtain ⟨⟨a, b⟩, hp, hab⟩ := List.mem_map.mp hx
          exact hab ▸ (zip_fst_lt r hsym _ hp)
        calc (∑ c ∈ Finset.range 5, (accumulate s r).sum c)
            = ∑ c ∈ Finset.range 5,
                (s.sum c + ((r.symbols.zip r.qualities).map Prod.fst).count c) := by
              refine Finset.sum_congr rfl fun c _ => accumulate_sum s r c
          _ = (∑ c ∈ Finset.range 5, s.sum c) + r.len := by
              rw [Finset.sum_add_distrib, hcnt, List.length_map,
                zip_length_of_valid r hlen]
      rw [hstep]
      simp only [List.map_cons, List.sum_cons]
      omega

theorem foldl_qsum_total : ∀ (rs : List Record) (s : AccState),
    (∀ r ∈ rs, ValidRecord r) →
    (∑ j ∈ Finset.range 256, (rs.foldl accumulate s).qsum j) =
      (∑ j ∈ Finset.range 256, s.qsum j) + (rs.map Record.len).sum
  | [], s, _ => by simp
  | r :: rest, s, hv => by
      obtain ⟨hlen, _, hq⟩ := hv r (List.mem_cons_self _ _)
      have hrest : ∀ x ∈ rest, ValidRecord x := fun x hx => hv x (List.mem_cons_of_mem _ hx)
      rw [List.foldl_cons, foldl_qsum_total rest _ hrest]
      have hstep : (∑ j ∈ Finset.range 256, (accumulate s r).qsum j) =
          (∑ j ∈ Finset.range 256, s.qsum j) + r.len := by
        have hcnt : (∑ j ∈ Finset.range 256,
            ((r.symbols.zip r.qualities).map Prod.snd).count j) =
            ((r.symbols.zip r.qualities).map Prod.snd).length := by
          refine sum_count_eq_length _ _ ?_
          intro x hx
          obtain ⟨⟨a, b⟩, hp, hab⟩ := List.mem_map.mp hx
          exact Nat.lt_succ_of_le (hab ▸ (zip_snd_le r hq _ hp))
        calc (∑ j ∈ Finset.range 256, (accumulate s r).qsum j)
            = ∑ j ∈ Finset.range 256,
                (s.qsum j + ((r.symbols.zip r.qualities).map Prod.snd).count j) := by
              refine Finset.sum_congr rfl fun j _ => accumulate_qsum s r j
          _ = (∑ j ∈ Finset.range 256, s.qsum j) + r.len := by
              rw [Finset.sum_add_distrib, hcnt, List.length_map,
                zip_length_of_valid r hlen]
      rw [hstep]
      simp only [List.map_cons, List.sum_cons]
      omega

theorem fold_sum_total (rs : List Record) (hv : ∀ r ∈ rs, ValidRecord r) :
    (∑ c ∈ Finset.range 5, (foldRecords rs).sum c) = (foldRecords rs).total := by
  rw [fold_total, foldRecords, foldl_sum_total rs initState hv]
  simp [initState]

theorem fold_qsum_total (rs : List Record) (hv : ∀ r ∈ rs, ValidRecord r) :
    (∑ j ∈ Finset.range 256, (foldRecords rs).qsum j) = (foldRecords rs).total := by
  rw [fold_total, foldRecords, foldl_qsum_total rs initState hv]
  simp [initState]

/-! ### Bounds and attained values of `qMax` -/

/-- Every quality value of every folded record is below the final `qMax`. -/
theorem foldl_qMax_mem_le : ∀ (rs : List Record) (s : AccState) (r : Record),
    r ∈ rs → ∀ x ∈ (r.symbols.zip r.qualities).map Prod.snd,
      x ≤ (rs.foldl accumulate s).qMax
  | [], _, _, hr, _, _ => absurd hr (List.not_mem_nil _)
  | p :: rest, s, r, hr, x, hx => by
      rcases List.mem_cons.mp hr with h | h
      · subst h
        refine le_trans ?_ (foldl_qMax_mono rest (accumulate s r))
        rw [accumulate_qMax]
        exact mem_le_foldl_max _ _ _ hx
      · rw [List.foldl_cons]
        exact foldl_qMax_mem_le rest (accumulate s p) r h x hx

/-- `qMax` stays below any bound respected by the start value and every
quality value folded in. -/
theorem foldl_qMax_ub : ∀ (rs : List Record) (s : AccState) (m : ℕ),
    s.qMax ≤ m →
    (∀ r ∈ rs, ∀ x ∈ (r.symbols.zip r.qualities).map Prod.snd, x ≤ m) →
    (rs.foldl accumulate s).qMax ≤ m
  | [], _, _, hs, _ => hs
  | r :: rest, s, m, hs, h => by
      rw [List.foldl_cons]
      refine foldl_qMax_ub rest _ m ?_ (fun x hx => h x (List.mem_cons_of_mem _ hx))
      rw [accumulate_qMax]
      exact foldl_max_le _ _ _ hs
        (fun x hx => h r (List.mem_cons_self _ _) x hx)

/-- The reader's quality bound keeps `qMax` within the `unsigned char` range. -/
theorem fold_qMax_le_255 (rs : List Record) (hv : ∀ r ∈ rs, ValidRecord r) :
    (foldRecords rs).qMax ≤ 255 := by
  rw [foldRecords]
  refine foldl_qMax_ub rs initState 255 (by simp [initState]) ?_
  intro r hr x hx
  obtain ⟨⟨a, b⟩, hp, hab⟩ := List.mem_map.mp hx
  exact hab ▸ (zip_snd_le r (hv r hr).2.2 _ hp)

/-- A list with positive sum has a positive element. -/
theorem exists_pos_of_sum_pos : ∀ (l : List ℕ), 0 < l.sum → ∃ x ∈ l, 0 < x
  | [], h => absurd h (by simp)
  | a :: t, h => by
      by_cases ha : 0 < a
      · exact ⟨a, List.mem_cons_self _ _, ha⟩
      · have : 0 < t.sum := by
          simp only [List.sum_cons] at h
          omega
        obtain ⟨x, hx, hpos⟩ := exists_pos_of_sum_pos t this
        exact ⟨x, List.mem_cons_of_mem _ hx, hpos⟩

/-- When every quality value equals `q` and at least one symbol was read,
`qMax` is exactly `q`. -/
theorem fold_qMax_const (rs : List Record) (q : ℕ)
    (hlen : ∀ r ∈ rs, r.symbols.length = r.qualities.length)
    (hall : ∀ r ∈ rs, ∀ x ∈ r.qualities, x = q)
    (ht : 0 < (foldRecords rs).total) :
    (foldRecords rs).qMax = q := by
  refine le_antisymm ?_ ?_
  · rw [foldRecords]
    refine foldl_qMax_ub rs initState q (by simp [initState]) ?_
    intro r hr x hx
    obtain ⟨⟨a, b⟩, hp, hab⟩ := List.mem_map.mp hx
    exact le_of_eq (hab ▸ hall r hr b (List.of_mem_zip hp).2)
  · rw [fold_total] at ht
    obtain ⟨L, hL, hLpos⟩ := exists_pos_of_sum_pos _ ht
    obtain ⟨r, hr, hrL⟩ := List.mem_map.mp hL
    have hzlen : 0 < ((r.symbols.zip r.qualities).map Prod.snd).length := by
      rw [List.length_map, zip_length_of_valid r (hlen r hr), hrL]
      exact hLpos
    obtain ⟨x, hx⟩ := List.exists_mem_of_length_pos hzlen
    have hxq : x = q := by
      obtain ⟨⟨a, b⟩, hp, hab⟩ := List.mem_map.mp hx
      exact hab ▸ hall r hr b (List.of_mem_zip hp).2
    rw [← hxq, foldRecords]
    exact foldl_qMax_mem_le rs initState r hr x hx

/-- Occurrence counts in an all-`q` list. -/
theorem count_of_all_eq (l : List ℕ) (q j : ℕ) (h : ∀ x ∈ l, x = q) :
    l.count j = if j = q then l.length else 0 := by
  induction l with
  | nil => simp
  | cons a t ih =>
      have ha : a = q := h a (List.mem_cons_self _ _)
      have ht : ∀ x ∈ t, x = q := fun x hx => h x (List.mem_cons_of_mem _ hx)
      rw [List.count_cons, ih ht]
      subst ha
      simp only [beq_iff_eq, List.length_cons]
      split_ifs <;> omega

/-- The global quality histogram when every quality value equals `q`. -/
theorem fold_qsum_const (rs : List Record) (q j : ℕ)
    (hv : ∀ r ∈ rs, ValidRecord r)
    (hall : ∀ r ∈ rs, ∀ x ∈ r.qualities, x = q) :
    (foldRecords rs).qsum j = if j = q then (foldRecords rs).total else 0 := by
  rw [fold_total, foldRecords, foldl_qsum]
  have hz : ∀ r ∈ rs,
      ((r.symbols.zip r.qualities).map Prod.snd).count j =
        if j = q then r.len else 0 := by
    intro r hr
    have : ∀ x ∈ (r.symbols.zip r.qualities).map Prod.snd, x = q := by
      intro x hx
      obtain ⟨⟨a, b⟩, hp, hab⟩ := List.mem_map.mp hx
      exact hab ▸ hall r hr b (List.of_mem_zip hp).2
    rw [count_of_all_eq _ q j this, List.length_map, zip_length_of_valid r (hv r hr).1]
  have hmap : (rs.map (fun r => ((r.symbols.zip r.qualities).map Prod.snd).count j)) =
      rs.map (fun r => if j = q then r.len else 0) := by
    exact List.map_congr_left hz
  rw [hmap]
  by_cases hj : j = q
  · subst hj
    simp [initState]
  · simp [initState, hj]

/-- The per-position quality histogram at the start state when every quality
value equals `q`. -/
theorem fold_pqsum_const (rs : List Record) (i j q : ℕ)
    (hlen : ∀ r ∈ rs, r.symbols.length = r.qualities.length)
    (hall : ∀ r ∈ rs, ∀ x ∈ r.qualities, x = q) :
    (foldRecords rs).pqsum i j =
      if j = q then rs.countP (fun r => decide (i < r.len)) else 0 := by
  rw [foldRecords, foldl_pqsum_const rs initState i j q hlen hall]
  simp [initState]

/-! ### The AQ formula -/

/-- Summing the error-probability series up to `qMax` or over the whole
`unsigned char` range is the same when the histogram vanishes above `qMax`. -/
theorem erate_global_eq (s : AccState) (h255 : s.qMax ≤ 255)
    (hhigh : ∀ j, s.qMax < j → s.qsum j = 0) :
    erateGlobal s = ∑ j ∈ Finset.range 256, (s.qsum j : ℝ) * errProb j := by
  unfold erateGlobal
  refine Finset.sum_subset (Finset.range_subset.mpr (by omega)) ?_
  intro x hx hnx
  simp only [Finset.mem_range] at hx hnx
  rw [hhigh x (by omega)]
  simp

theorem erate_at_eq (s : AccState) (i : ℕ) (h255 : s.qMax ≤ 255)
    (hhigh : ∀ j, s.qMax < j → s.pqsum i j = 0) :
    erateAt s i = ∑ j ∈ Finset.range 256, (s.pqsum i j : ℝ) * errProb j := by
  unfold erateAt
  refine Finset.sum_subset (Finset.range_subset.mpr (by omega)) ?_
  intro x hx hnx
  simp only [Finset.mem_range] at hx hnx
  rw [hhigh x (by omega)]
  simp

/-- The printed global AQ is the specification's
`-10·log10(mean error probability)`. -/
theorem aq_eq_spec_global (s : AccState) (h255 : s.qMax ≤ 255)
    (hhigh : ∀ j, s.qMax < j → s.qsum j = 0)
    (htot : (∑ j ∈ Finset.range 256, s.qsum j) = s.total) :
    aqGlobal s = specAqGlobal s := by
  unfold aqGlobal specAqGlobal specMeanErrGlobal
  rw [Real.logb, erate_global_eq s h255 hhigh]
  have hT : (∑ j ∈ Finset.range 256, ((s.qsum j : ℕ) : ℝ)) = ((s.total : ℕ) : ℝ) := by
    rw [← htot]
    push_cast
    rfl
  rw [hT, mul_div_assoc]

/-- The printed per-position AQ is the specification's
`-10·log10(mean error probability)` at that position's scope. -/
theorem aq_eq_spec_at (s : AccState) (i : ℕ) (h255 : s.qMax ≤ 255)
    (hhigh : ∀ j, s.qMax < j → s.pqsum i j = 0)
    (hden : ((remainingAt s i : ℤ) : ℝ) = ∑ j ∈ Finset.range 256, (s.pqsum i j : ℝ)) :
    aqAt s i = specAqAt s i := by
  unfold aqAt specAqAt specMeanErrAt
  rw [Real.logb, erate_at_eq s i h255 hhigh, hden, mul_div_assoc]

/-- When every folded quality value is `q`, the global AQ collapses to
`-10·log10` of the error probability of `q`. -/
theorem aq_const_global (rs : List Record) (q : ℕ)
    (hv : ∀ r ∈ rs, ValidRecord r)
    (hall : ∀ r ∈ rs, ∀ x ∈ r.qualities, x = q)
    (ht : 0 < (foldRecords rs).total) :
    aqGlobal (foldRecords rs) = -10 * Real.logb 10 (errProb q) := by
  have hlen : ∀ r ∈ rs, r.symbols.length = r.qualities.length := fun r hr => (hv r hr).1
  have hqmax : (foldRecords rs).qMax = q := fold_qMax_const rs q hlen hall ht
  unfold aqGlobal erateGlobal
  rw [hqmax]
  have hsum : (∑ j ∈ Finset.range (q + 1), ((foldRecords rs).qsum j : ℝ) * errProb j) =
      ((foldRecords rs).total : ℝ) * errProb q := by
    have hcongr : ∀ j ∈ Finset.range (q + 1), ((foldRecords rs).qsum j : ℝ) * errProb j =
        (if j = q then ((foldRecords rs).total : ℝ) * errProb q else 0) := by
      intro j hj
      rw [fold_qsum_const rs q j hv hall]
      split_ifs with h <;> simp [h]
    rw [Finset.sum_congr rfl hcongr,
      Finset.sum_ite_eq' (Finset.range (q + 1)) q
        (fun _ => ((foldRecords rs).total : ℝ) * errProb q)]
    simp
  rw [hsum]
  have htR : ((foldRecords rs).total : ℝ) ≠ 0 := Nat.cast_ne_zero.mpr (by omega)
  rw [mul_div_cancel_left₀ _ htR, Real.logb, mul_div_assoc]

/-- When every folded quality value is `q`, each printed per-position AQ also
collapses to `-10·log10` of that error probability. -/
theorem aq_const_at (rs : List Record) (q i : ℕ)
    (hv : ∀ r ∈ rs, ValidRecord r)
    (hall : ∀ r ∈ rs, ∀ x ∈ r.qualities, x = q)
    (ht : 0 < (foldRecords rs).total)
    (hi : i < (foldRecords rs).lengthMax) :
    aqAt (foldRecords rs) i = -10 * Real.logb 10 (errProb q) := by
  have hlen : ∀ r ∈ rs, r.symbols.length = r.qualities.length := fun r hr => (hv r hr).1
  have hqmax : (foldRecords rs).qMax = q := fold_qMax_const rs q hlen hall ht
  have hrem := remaining_eq_countP rs i
  have hpos := remaining_pos rs i hi
  unfold aqAt erateAt
  rw [hqmax]
  have hsum : (∑ j ∈ Finset.range (q + 1), ((foldRecords rs).pqsum i j : ℝ) * errProb j) =
      ((rs.countP (fun r => decide (i < r.len)) : ℕ) : ℝ) * errProb q := by
    have hcongr : ∀ j ∈ Finset.range (q + 1), ((foldRecords rs).pqsum i j : ℝ) * errProb j =
        (if j = q then ((rs.countP (fun r => decide (i < r.len)) : ℕ) : ℝ) * errProb q
         else 0) := by
      intro j hj
      rw [fold_pqsum_const rs i j q hlen hall]
      split_ifs with h <;> simp [h]
    rw [Finset.sum_congr rfl hcongr,
      Finset.sum_ite_eq' (Finset.range (q + 1)) q
        (fun _ => ((rs.countP (fun r => decide (i < r.len)) : ℕ) : ℝ) * errProb q)]
    simp
  rw [hsum]
  have hcR : ((remainingAt (foldRecords rs) i : ℤ) : ℝ) =
      ((rs.countP (fun r => decide (i < r.len)) : ℕ) : ℝ) := by
    rw [hrem]
    push_cast
    rfl
  rw [hcR]
  have hne : ((rs.countP (fun r => decide (i < r.len)) : ℕ) : ℝ) ≠ 0 := by
    rw [hrem] at hpos
    exact_mod_cast ne_of_gt (by exact_mod_cast hpos)
  rw [mul_div_cancel_left₀ _ hne, Real.logb, mul_div_assoc]

/-! ## The claims -/

/-- C1: the claim says a run invoked with one openable file argument
processes that file's records and succeeds only after a full valid stream.
The code (lines 84-93) instead prints the usage text and exits with
`EXIT_SUCCESS` immediately whenever the file argument opens, never reading a
record; only the no-argument standard-input branch processes a stream.  This
theorem exhibits the divergent branch. -/
theorem c1_file_argument_not_processed :
    dispatch 2 true = DriverAction.exitSuccessUsage ∧
      DriverAction.exitSuccessUsage ≠ DriverAction.processStream ∧
      (∀ b : Bool, dispatch 1 b = DriverAction.processStream) :=
  ⟨rfl, by decide, fun _ => rfl⟩

/-- C2: for every position `i` below `maxLength`, the denominator the report
uses for position `i` (the running total depleted by `nlen[0..i]`, which is
what `remainingAt` computes) equals the number of records whose length is
strictly greater than `i`. -/
theorem c2_position_denominator (rs : List Record) (i : ℕ)
    (hi : i < (foldRecords rs).lengthMax) :
    remainingAt (foldRecords rs) i = rs.countP (fun r => decide (i < r.len)) :=
  remaining_eq_countP rs i

/-- Witness for C2: one record of length 1, position 0. -/
theorem c2_position_denominator_witness :
    0 < (foldRecords [exRec]).lengthMax ∧
      remainingAt (foldRecords [exRec]) 0 =
        List.countP (fun r => decide (0 < r.len)) [exRec] :=
  ⟨by decide, c2_position_denominator [exRec] 0 (by decide)⟩

/-- C5: a record longer than `MAX_LENGTH` aborts the run with the fatal exit
of lines 100-103, whose message data carries the offending length and the
configured maximum, regardless of how many in-bound records preceded it; no
report is produced. -/
theorem c5_length_exceeded_fatal (pre rest : List Record) (r : Record) (e : Bool)
    (hpre : ∀ p ∈ pre, p.len ≤ MAX_LENGTH) (hr : MAX_LENGTH < r.len) :
    runAll initState (pre ++ r :: rest) e = Outcome.fatalLength r.id r.len MAX_LENGTH ∧
      ∀ s', runAll initState (pre ++ r :: rest) e ≠ Outcome.report s' := by
  have h := runAll_fatal pre initState r rest e (by decide) hpre hr
  refine ⟨h, fun s' hcon => ?_⟩
  rw [h] at hcon
  exact Outcome.noConfusion hcon

/-- Witness for C5: a single record of length 100001. -/
theorem c5_length_exceeded_fatal_witness :
    runAll initState [longRec] false = Outcome.fatalLength "big" 100001 MAX_LENGTH ∧
      ∀ s', runAll initState [longRec] false ≠ Outcome.report s' := by
  have hlen : longRec.len = 100001 := List.length_replicate 100001 0
  have h := c5_length_exceeded_fatal [] [] longRec false
    (fun p hp => absurd hp (List.not_mem_nil p))
    (by rw [hlen]; decide)
  rw [List.nil_append] at h
  rw [show longRec.id = "big" from rfl, hlen] at h
  exact h

/-- C6: the reader reports a malformed record (truncated input, length
mismatch between symbol and quality lines, or a character that fails
decoding) with an error status, and a run whose stream ends in a reader
error aborts without ever producing a report, discarding the statistics
accumulated so far. -/
theorem c6_malformed_record_aborts :
    (∀ lines : List String, lines ≠ [] → lines.length < 4 →
      readRecord lines = ReadOutcome.err) ∧
    (∀ idL symL sepL qualL : String, ∀ rest : List String,
      symL.length ≠ qualL.length →
      readRecord (idL :: symL :: sepL :: qualL :: rest) = ReadOutcome.err) ∧
    (∀ idL symL sepL qualL : String, ∀ rest : List String,
      decodeSymbols symL = none ∨ decodeQuals qualL = none →
      readRecord (idL :: symL :: sepL :: qualL :: rest) = ReadOutcome.err) ∧
    (∀ (s : AccState) (rs : List Record) (s' : AccState),
      runAll s rs true ≠ Outcome.report s') := by
  refine ⟨?_, ?_, ?_, fun s rs s' => runAll_err_no_report rs s s'⟩
  · intro lines h1 h2
    match lines with
    | [] => exact absurd rfl h1
    | [a] => rfl
    | [a, b] => rfl
    | [a, b, c] => rfl
    | a :: b :: c :: d :: t =>
        simp only [List.length_cons] at h2
        omega
  · intro idL symL sepL qualL rest h
    simp only [readRecord]
    rw [if_pos h]
  · intro idL symL sepL qualL rest hdec
    simp only [readRecord]
    by_cases hlen : symL.length ≠ qualL.length
    · rw [if_pos hlen]
    · rw [if_neg hlen]
      rcases hdec with hs | hq
      · cases hq2 : decodeQuals qualL <;> rw [hs]
      · cases hs2 : decodeSymbols symL <;> rw [hq]

/-- Witness for C6: a length-mismatched record is rejected and an
error-terminated run reports nothing. -/
theorem c6_malformed_record_aborts_witness :
    readRecord ["@x", "AC", "+", "I"] = ReadOutcome.err ∧
      runAll initState [] true ≠ Outcome.report initState :=
  ⟨c6_malformed_record_aborts.2.1 "@x" "AC" "+" "I" [] (by decide),
   c6_malformed_record_aborts.2.2.2 initState [] initState⟩

/-- C7: on an empty stream the report line shows 0 sequences and 0 total
length, the average/max fields and the whole numeric section are omitted,
and on every input each denominator the report ever divides by is
positive. -/
theorem c7_empty_input_and_zero_guards :
    (reportHeader (foldRecords []) = (0, 0) ∧
      reportAvgMax (foldRecords []) = none ∧
      reportNumericPresent (foldRecords []) = false) ∧
    ∀ rs : List Record, ∀ d ∈ reportDenoms (foldRecords rs), 0 < d := by
  refine ⟨⟨rfl, rfl, rfl⟩, ?_⟩
  intro rs d hd
  unfold reportDenoms at hd
  rcases List.mem_append.mp hd with h | h
  · by_cases hn : (foldRecords rs).nseq = 0
    · rw [if_pos hn] at h
      exact absurd h (List.not_mem_nil d)
    · rw [if_neg hn] at h
      rw [List.mem_singleton.mp h]
      exact_mod_cast Nat.pos_of_ne_zero hn
  · by_cases htz : (foldRecords rs).total = 0
    · rw [if_pos htz] at h
      exact absurd h (List.not_mem_nil d)
    · rw [if_neg htz] at h
      have hnz : (foldRecords rs).nseq ≠ 0 := by
        rw [fold_nseq]
        intro hlen0
        rw [fold_total] at htz
        have : rs = [] := List.length_eq_zero.mp hlen0
        subst this
        exact htz rfl
      rcases List.mem_cons.mp h with h | h
      · rw [h]
        exact_mod_cast Nat.pos_of_ne_zero htz
      rcases List.mem_cons.mp h with h | h
      · rw [h]
        exact_mod_cast Nat.pos_of_ne_zero hnz
      · obtain ⟨i, hi, hd'⟩ := List.mem_map.mp h
        rw [← hd']
        exact remaining_pos rs i (List.mem_range.mp hi)

/-- Witness for C7: the positivity part evaluated on a one-record input. -/
theorem c7_empty_input_and_zero_guards_witness :
    reportHeader (foldRecords []) = (0, 0) ∧
      0 < remainingAt (foldRecords [exRec]) 0 :=
  ⟨c7_empty_input_and_zero_guards.1.1,
   c7_empty_input_and_zero_guards.2 [exRec]
     (remainingAt (foldRecords [exRec]) 0) (by decide)⟩

/-- C8: after folding any list of valid records, `nseq` counts the records,
`total` sums their lengths, the five per-position symbol counters at `i` sum
to the number of records longer than `i`, and the five global symbol
counters sum to `total`. -/
theorem c8_accumulator_invariants (rs : List Record) (hv : ∀ r ∈ rs, ValidRecord r) :
    (foldRecords rs).nseq = rs.length ∧
      (foldRecords rs).total = (rs.map Record.len).sum ∧
      (∀ i, (∑ c ∈ Finset.range 5, (foldRecords rs).psum i c) =
        rs.countP (fun r => decide (i < r.len))) ∧
      (∑ c ∈ Finset.range 5, (foldRecords rs).sum c) = (foldRecords rs).total :=
  ⟨fold_nseq rs, fold_total rs, fun i => fold_psum_sum rs i hv, fold_sum_total rs hv⟩

/-- Witness for C8: a single one-symbol record. -/
theorem c8_accumulator_invariants_witness :
    (foldRecords [exRec]).nseq = [exRec].length ∧
      (foldRecords [exRec]).total = ([exRec].map Record.len).sum ∧
      (∀ i, (∑ c ∈ Finset.range 5, (foldRecords [exRec]).psum i c) =
        List.countP (fun r => decide (i < r.len)) [exRec]) ∧
      (∑ c ∈ Finset.range 5, (foldRecords [exRec]).sum c) = (foldRecords [exRec]).total :=
  c8_accumulator_invariants [exRec] (by decide)

/-- C9 counterexample: the claim says the average is printed to one decimal
place, but line 120 uses `%.2f`: with total length 3 over 2 records the
program prints `1.50`, not the claimed `1.5`. -/
theorem c9_average_one_decimal_counterexample :
    averageField (foldRecords avgRecs) = "1.50" ∧
      formatFixed 1 (((foldRecords avgRecs).total : ℚ) / ((foldRecords avgRecs).nseq : ℚ)) = "1.5" ∧
      averageField (foldRecords avgRecs) ≠
        formatFixed 1 (((foldRecords avgRecs).total : ℚ) / ((foldRecords avgRecs).nseq : ℚ)) := by
  have h3 : (foldRecords avgRecs).total = 3 := by decide
  have h2 : (foldRecords avgRecs).nseq = 2 := by decide
  have hone : formatFixed 1 (((foldRecords avgRecs).total : ℚ) / ((foldRecords avgRecs).nseq : ℚ)) = "1.5" := by
    rw [h3, h2]
    simp only [formatFixed]
    have hx : (((3 : ℕ) : ℚ) / ((2 : ℕ) : ℚ)) * 10 ^ 1 = ((15 : ℤ) : ℚ) := by norm_num
    rw [hx, lrintQ_intCast]
    decide
  have htwo : averageField (foldRecords avgRecs) = "1.50" := by
    unfold averageField
    rw [h3, h2]
    simp only [formatFixed]
    have hx : (((3 : ℕ) : ℚ) / ((2 : ℕ) : ℚ)) * 10 ^ 2 = ((150 : ℤ) : ℚ) := by norm_num
    rw [hx, lrintQ_intCast]
    decide
  refine ⟨htwo, hone, ?_⟩
  rw [htwo, hone]
  decide

/-- C9 as amended: when at least one record was read, the printed average is
`totalLength / recordCount` formatted to two decimal places. -/
theorem c9_average_two_decimals (rs : List Record) (h : rs ≠ []) :
    averageField (foldRecords rs) =
      formatFixed 2 ((((rs.map Record.len).sum : ℕ) : ℚ) / ((rs.length : ℕ) : ℚ)) := by
  unfold averageField
  rw [fold_total, fold_nseq]

/-- Witness for the amended C9. -/
theorem c9_average_two_decimals_witness :
    averageField (foldRecords avgRecs) =
      formatFixed 2 ((((avgRecs.map Record.len).sum : ℕ) : ℚ) / ((avgRecs.length : ℕ) : ℚ)) :=
  c9_average_two_decimals avgRecs (by decide)

/-- C10: a record of length exactly `MAX_LENGTH` passes the length check of
line 100 (`length > MAX_LENGTH` is false) and is folded in, yet the
histogram increment `++nlen[length]` of line 96 then uses index
`MAX_LENGTH` itself, one past the end of the `MAX_LENGTH`-sized arrays of
line 81 — the claimed bound `index < MAX_LENGTH` fails. -/
theorem c10_histogram_index_out_of_bounds :
    runAll initState [maxLenRec] false = Outcome.report (foldRecords [maxLenRec]) ∧
      nlenAccessIndex maxLenRec = MAX_LENGTH ∧
      ¬ accessesInBounds maxLenRec ∧
      (∀ i ∈ positionAccessIndices maxLenRec, i < MAX_LENGTH) := by
  have hlen : maxLenRec.len = 100000 := List.length_replicate 100000 0
  refine ⟨?_, ?_, ?_, ?_⟩
  · exact runAll_ok [maxLenRec] initState
      (fun r hr => by
        rw [List.mem_singleton.mp hr, hlen]
        decide)
  · rw [show nlenAccessIndex maxLenRec = maxLenRec.len from rfl, hlen]
    rfl
  · intro hb
    have h1 := hb.1
    rw [show nlenAccessIndex maxLenRec = maxLenRec.len from rfl, hlen] at h1
    exact absurd h1 (by decide)
  · intro i hi
    unfold positionAccessIndices at hi
    rw [hlen] at hi
    have := List.mem_range.mp hi
    unfold MAX_LENGTH
    omega

/-- C3: the printed AQ — globally and at every position — is
`-10·log10` of the mean error probability (the error-probability series of
the scope's histogram divided by the scope's symbol count), and when every
quality value in scope is the same `q` it equals `-10·log10` of the error
probability `10^(-q/10)` encoded by `q`. -/
theorem c3_aq_mean_error (rs : List Record) (hv : ∀ r ∈ rs, ValidRecord r) :
    (aqGlobal (foldRecords rs) = specAqGlobal (foldRecords rs) ∧
      ∀ i, aqAt (foldRecords rs) i = specAqAt (foldRecords rs) i) ∧
    (∀ q, (∀ r ∈ rs, ∀ x ∈ r.qualities, x = q) → 0 < (foldRecords rs).total →
      aqGlobal (foldRecords rs) = -10 * Real.logb 10 (errProb q) ∧
      ∀ i, i < (foldRecords rs).lengthMax →
        aqAt (foldRecords rs) i = -10 * Real.logb 10 (errProb q)) := by
  have h255 := fold_qMax_le_255 rs hv
  refine ⟨⟨?_, ?_⟩, ?_⟩
  · exact aq_eq_spec_global _ h255 (fun j hj => (fold_qsum_high rs j hj).1)
      (fold_qsum_total rs hv)
  · intro i
    refine aq_eq_spec_at _ i h255 (fun j hj => (fold_qsum_high rs j hj).2 i) ?_
    rw [remaining_eq_countP rs i, ← fold_pqsum_sum rs i hv]
    push_cast
    rfl
  · intro q hall ht
    exact ⟨aq_const_global rs q hv hall ht,
      fun i hi => aq_const_at rs q i hv hall ht hi⟩

/-- Witness for C3: one symbol of quality 30. -/
theorem c3_aq_mean_error_witness :
    aqGlobal (foldRecords [exRec]) = -10 * Real.logb 10 (errProb 30) ∧
      aqGlobal (foldRecords [exRec]) = specAqGlobal (foldRecords [exRec]) := by
  have h := c3_aq_mean_error [exRec] (by decide)
  exact ⟨(h.2 30 (by decide) (by decide)).1, h.1.1⟩

/-- C4 counterexample: the claim rounds per-mille entries half away from
zero, but lines 134/146 use `lrint` under the default round-to-nearest-even
mode.  With one of sixteen symbols at quality 4 the exact per-mille value is
62.5 (representable exactly in double): the program prints 62 while the
claimed rounding gives 63.  The entry is genuinely printed: quality 4 is
within `qMax` and `total` is positive. -/
theorem c4_permille_rounding_counterexample :
    4 ≤ (foldRecords [tieRec]).qMax ∧
      0 < (foldRecords [tieRec]).total ∧
      permilleGlobal (foldRecords [tieRec]) 4 = 62 ∧
      roundAway (1000 * ((foldRecords [tieRec]).qsum 4 : ℚ) /
        ((foldRecords [tieRec]).total : ℚ)) = 63 := by
  have hq : (foldRecords [tieRec]).qsum 4 = 1 := by decide
  have ht : (foldRecords [tieRec]).total = 16 := by decide
  refine ⟨by decide, by decide, ?_, ?_⟩
  · unfold permilleGlobal
    rw [hq, ht]
    have hx : 1000 * ((1 : ℕ) : ℚ) / ((16 : ℕ) : ℚ) = ((62 : ℤ) : ℚ) + 1 / 2 := by
      norm_num
    rw [hx, lrintQ_half]
    decide
  · rw [hq, ht]
    unfold roundAway
    rw [if_pos (by norm_num : (0 : ℚ) ≤ 1000 * ((1 : ℕ) : ℚ) / ((16 : ℕ) : ℚ))]
    have hy : 1000 * ((1 : ℕ) : ℚ) / ((16 : ℕ) : ℚ) + 1 / 2 = ((63 : ℤ) : ℚ) := by
      norm_num
    rw [hy, Int.floor_intCast]

/-- C4 as amended: every printed per-mille entry, global and per position,
is `1000·count/denominator` rounded to the nearest integer with ties to the
even neighbour (so it agrees with round-half-away-from-zero except at exact
halves). -/
theorem c4_permille_ties_to_even (rs : List Record) (j i : ℕ)
    (hj : j ≤ (foldRecords rs).qMax) (ht : 0 < (foldRecords rs).total)
    (hi : i < (foldRecords rs).lengthMax) :
    (|((permilleGlobal (foldRecords rs) j : ℤ) : ℚ) -
        1000 * ((foldRecords rs).qsum j : ℚ) / ((foldRecords rs).total : ℚ)| ≤ 1 / 2 ∧
      (1000 * ((foldRecords rs).qsum j : ℚ) / ((foldRecords rs).total : ℚ) -
          ⌊1000 * ((foldRecords rs).qsum j : ℚ) / ((foldRecords rs).total : ℚ)⌋ = 1 / 2 →
        Even (permilleGlobal (foldRecords rs) j)) ∧
      (1000 * ((foldRecords rs).qsum j : ℚ) / ((foldRecords rs).total : ℚ) -
          ⌊1000 * ((foldRecords rs).qsum j : ℚ) / ((foldRecords rs).total : ℚ)⌋ ≠ 1 / 2 →
        permilleGlobal (foldRecords rs) j =
          roundAway (1000 * ((foldRecords rs).qsum j : ℚ) / ((foldRecords rs).total : ℚ)))) ∧
    (|((permilleAt (foldRecords rs) i j : ℤ) : ℚ) -
        1000 * ((foldRecords rs).pqsum i j : ℚ) / ((remainingAt (foldRecords rs) i : ℚ))| ≤ 1 / 2 ∧
      (1000 * ((foldRecords rs).pqsum i j : ℚ) / ((remainingAt (foldRecords rs) i : ℚ)) -
          ⌊1000 * ((foldRecords rs).pqsum i j : ℚ) / ((remainingAt (foldRecords rs) i : ℚ))⌋ = 1 / 2 →
        Even (permilleAt (foldRecords rs) i j)) ∧
      (1000 * ((foldRecords rs).pqsum i j : ℚ) / ((remainingAt (foldRecords rs) i : ℚ)) -
          ⌊1000 * ((foldRecords rs).pqsum i j : ℚ) / ((remainingAt (foldRecords rs) i : ℚ))⌋ ≠ 1 / 2 →
        permilleAt (foldRecords rs) i j =
          roundAway (1000 * ((foldRecords rs).pqsum i j : ℚ) /
            ((remainingAt (foldRecords rs) i : ℚ))))) := by
  constructor
  · exact ⟨lrintQ_near _, lrintQ_tie_even _,
      fun h => lrintQ_eq_roundAway _ (by positivity) h⟩
  · have hnn : (0 : ℚ) ≤ ((remainingAt (foldRecords rs) i : ℤ) : ℚ) := by
      rw [remaining_eq_countP]
      push_cast
      positivity
    exact ⟨lrintQ_near _, lrintQ_tie_even _,
      fun h => lrintQ_eq_roundAway _
        (div_nonneg (by positivity) hnn) h⟩

/-- Witness for the amended C4: the nearest-integer bound evaluated on the
tie-producing record, globally and at position 0. -/
theorem c4_permille_ties_to_even_witness :
    |((permilleGlobal (foldRecords [tieRec]) 4 : ℤ) : ℚ) -
        1000 * ((foldRecords [tieRec]).qsum 4 : ℚ) / ((foldRecords [tieRec]).total : ℚ)| ≤ 1 / 2 ∧
      |((permilleAt (foldRecords [tieRec]) 0 4 : ℤ) : ℚ) -
        1000 * ((foldRecords [tieRec]).pqsum 0 4 : ℚ) /
          ((remainingAt (foldRecords [tieRec]) 0 : ℚ))| ≤ 1 / 2 := by
  have h := c4_permille_ties_to_even [tieRec] 4 0 (by decide) (by decide) (by decide)
  exact ⟨h.1.1, h.2.1⟩

end Fastqcheck
